import Mathlib

/-!
# huh: the truthiness predicates of `istrue.h` and `isfalse.h`

A shallow embedding of the six C functions

* `istrue_scalar`, `istrue_array`, `istrue`   (include/istrue.h)
* `isfalse_scalar`, `isfalse_array`, `isfalse` (include/isfalse.h)

## Data model

* A byte (`unsigned char`) is a `Fin 256`.
* A reference (`const void *`) is an `Option (List Byte)`: `none` is `NULL`,
  `some bytes` is a non-null pointer together with the bytes that may be read
  through it, `bytes[i]` being the byte at `ptr[i]`.
* A C `int` is an `Int` in the range `INT_MIN .. INT_MAX` (`isInt`).
* A call returns `Option Int`: `some r` when the C function returns `r`, and
  `none` when it reads outside the region (undefined behaviour in C).

The loop counters `i` and `zeros` never exceed `size`, so no signed overflow
occurs in the loops; the only integer conversion in the code is the comparison
`size == sizeof(char)`, which converts `size` to `size_t` (`toSizeT`).
-/

namespace Huh

/-- An `unsigned char`. -/
abbrev Byte := Fin 256

/-- A `const void *`: `none` is `NULL`, `some bytes` points at `bytes`. -/
abbrev Ref := Option (List Byte)

/-- Smallest value of a 32-bit `int`. -/
def INT_MIN : Int := -2147483648

/-- Largest value of a 32-bit `int`. -/
def INT_MAX : Int := 2147483647

/-- The values a C `int` can take. -/
def isInt (n : Int) : Prop := INT_MIN ≤ n ∧ n ≤ INT_MAX

instance (n : Int) : Decidable (isInt n) := by
  unfold isInt; exact inferInstance

/-- Conversion of an `int` to the 64-bit unsigned `size_t`, as the usual
arithmetic conversions do in `size == sizeof(char)`. -/
def toSizeT (n : Int) : Nat := (n % 2 ^ 64).toNat

/-- The value of `sizeof(char)`. -/
def sizeof_char : Nat := 1

/-- The read `ptr[i]` of an `unsigned char`: `none` outside the region. -/
def readByte (ptr : List Byte) (i : Int) : Option Byte :=
  if 0 ≤ i then ptr[i.toNat]? else none

/-- The region behind `ref` holds at least `n` bytes (nothing is asked of a
`NULL` reference, nor when `n ≤ 0`). -/
def backed (ref : Ref) (n : Int) : Prop :=
  ∀ ptr, ref = some ptr → n ≤ (ptr.length : Int)

/-- The bytes `ptr[i] .. ptr[size-1]` of a region (empty when `size ≤ i`). -/
def span (ptr : List Byte) (i size : Int) : List Byte :=
  (ptr.drop i.toNat).take (size - i).toNat

/-! ## istrue.h -/

/-- `istrue_scalar`, istrue.h lines 76-85. -/
def istrue_scalar (value : Ref) : Option Int :=
  match value with
  | none => some 0
  | some ptr =>
    match readByte ptr 0 with
    | none => none
    | some b => some (if b ≠ 0 then 1 else 0)

/-- The loop of `istrue_array`, istrue.h lines 105-109, entered with the
current values of `i` and `zeros`; it yields the final value of `zeros`. -/
def istrue_array_loop (ptr : List Byte) (size : Int) (i zeros : Int) : Option Int :=
  if i < size then
    match readByte ptr i with
    | none => none
    | some b => istrue_array_loop ptr size (i + 1) (if b = 0 then zeros + 1 else zeros)
  else some zeros
termination_by (size - i).toNat
decreasing_by omega

/-- `istrue_array`, istrue.h lines 96-115. -/
def istrue_array (value : Ref) (size : Int) : Option Int :=
  match value with
  | none => some 0
  | some ptr =>
    if size = 0 then some 0
    else
      match istrue_array_loop ptr size 0 0 with
      | none => none
      | some zeros => if zeros ≠ size then some 1 else some 0

/-- `istrue`, istrue.h lines 126-147. -/
def istrue (value : Ref) (size : Int) : Option Int :=
  match value with
  | none => some 0
  | some ptr =>
    if size = 0 then some 0
    else if toSizeT size = sizeof_char then istrue_scalar (some ptr)
    else istrue_array (some ptr) size

/-! ## isfalse.h -/

/-- `isfalse_scalar`, isfalse.h lines 76-85. -/
def isfalse_scalar (value : Ref) : Option Int :=
  match value with
  | none => some 1
  | some ptr =>
    match readByte ptr 0 with
    | none => none
    | some b => some (if b = 0 then 1 else 0)

/-- The loop of `isfalse_array` with the `return 1` that follows it,
isfalse.h lines 104-112, entered with the current value of `i`. -/
def isfalse_array_loop (ptr : List Byte) (size : Int) (i : Int) : Option Int :=
  if i < size then
    match readByte ptr i with
    | none => none
    | some b => if b ≠ 0 then some 0 else isfalse_array_loop ptr size (i + 1)
  else some 1
termination_by (size - i).toNat
decreasing_by omega

/-- `isfalse_array`, isfalse.h lines 96-113. -/
def isfalse_array (value : Ref) (size : Int) : Option Int :=
  match value with
  | none => some 1
  | some ptr =>
    if size = 0 then some 1
    else isfalse_array_loop ptr size 0

/-- `isfalse`, isfalse.h lines 124-145. -/
def isfalse (value : Ref) (size : Int) : Option Int :=
  match value with
  | none => some 1
  | some ptr =>
    if size = 0 then some 1
    else if toSizeT size = sizeof_char then isfalse_scalar (some ptr)
    else isfalse_array (some ptr) size

/-! ## The values of tests/istrue.c as bytes in memory -/

/-- The low eight bits of a number, as a byte. -/
def byteOf (n : Nat) : Byte := ⟨n % 256, Nat.mod_lt n (by decide)⟩

/-- The four bytes of a 32-bit `int` in memory, least significant first
(two's complement, little-endian). -/
def int_bytes (v : Int) : List Byte :=
  [byteOf (v % 2 ^ 32).toNat, byteOf ((v % 2 ^ 32).toNat / 2 ^ 8),
   byteOf ((v % 2 ^ 32).toNat / 2 ^ 16), byteOf ((v % 2 ^ 32).toNat / 2 ^ 24)]

/-- The bytes of an `int[]` in memory, `sizeof(int)` = 4 bytes an element. -/
def int_array : List Int → List Byte
  | [] => []
  | v :: vs => int_bytes v ++ int_array vs

/-- The four bytes of `(float){3.14}` in memory: the IEEE-754 binary32 value
nearest to 3.14 is 0x4048F5C3, stored least significant byte first. -/
def float_3_14 : List Byte := [0xC3, 0xF5, 0x48, 0x40]

/-! ## The positions read

The same control flow as the six functions, yielding the positions `i` at
which `ptr[i]` is evaluated instead of the result. -/

/-- The position read by `istrue_scalar`: `*value`, that is position 0, unless
`value` is `NULL`. -/
def istrue_scalar_reads (value : Ref) : List Int :=
  match value with
  | none => []
  | some _ => [0]

/-- The positions read by the loop of `istrue_array` entered at `i`, in order;
a read outside the region is the last one. -/
def istrue_array_loop_reads (ptr : List Byte) (size : Int) (i : Int) : List Int :=
  if i < size then
    match readByte ptr i with
    | none => [i]
    | some _ => i :: istrue_array_loop_reads ptr size (i + 1)
  else []
termination_by (size - i).toNat
decreasing_by omega

/-- The positions read by `istrue_array`. -/
def istrue_array_reads (value : Ref) (size : Int) : List Int :=
  match value with
  | none => []
  | some ptr => if size = 0 then [] else istrue_array_loop_reads ptr size 0

/-- The positions read by `istrue`. -/
def istrue_reads (value : Ref) (size : Int) : List Int :=
  match value with
  | none => []
  | some ptr =>
    if size = 0 then []
    else if toSizeT size = sizeof_char then istrue_scalar_reads (some ptr)
    else istrue_array_reads (some ptr) size

/-- The position read by `isfalse_scalar`. -/
def isfalse_scalar_reads (value : Ref) : List Int :=
  match value with
  | none => []
  | some _ => [0]

/-- The positions read by the loop of `isfalse_array` entered at `i`, in
order; the loop is left at the first non-zero byte or read outside the
region. -/
def isfalse_array_loop_reads (ptr : List Byte) (size : Int) (i : Int) : List Int :=
  if i < size then
    match readByte ptr i with
    | none => [i]
    | some b => if b ≠ 0 then [i] else i :: isfalse_array_loop_reads ptr size (i + 1)
  else []
termination_by (size - i).toNat
decreasing_by omega

/-- The positions read by `isfalse_array`. -/
def isfalse_array_reads (value : Ref) (size : Int) : List Int :=
  match value with
  | none => []
  | some ptr => if size = 0 then [] else isfalse_array_loop_reads ptr size 0

/-- The positions read by `isfalse`. -/
def isfalse_reads (value : Ref) (size : Int) : List Int :=
  match value with
  | none => []
  | some ptr =>
    if size = 0 then []
    else if toSizeT size = sizeof_char then isfalse_scalar_reads (some ptr)
    else isfalse_array_reads (some ptr) size

/-! ## The scan loops -/

theorem readByte_of_lt (ptr : List Byte) (i : Int) (h0 : 0 ≤ i)
    (h : i.toNat < ptr.length) : readByte ptr i = some ptr[i.toNat] := by
  simp [readByte, h0, List.getElem?_eq_getElem h]

theorem span_of_ge (ptr : List Byte) (i size : Int) (h : ¬ i < size) :
    span ptr i size = [] := by
  have : (size - i).toNat = 0 := by omega
  simp [span, this]

theorem span_of_lt (ptr : List Byte) (i size : Int) (h0 : 0 ≤ i) (h : i < size)
    (hl : i.toNat < ptr.length) :
    span ptr i size = ptr[i.toNat] :: span ptr (i + 1) size := by
  have h1 : (size - i).toNat = (size - (i + 1)).toNat + 1 := by omega
  have h2 : (i + 1).toNat = i.toNat + 1 := by omega
  unfold span
  rw [h1, h2, List.drop_eq_getElem_cons hl, List.take_succ_cons]

theorem span_zero (ptr : List Byte) (n : Int) : span ptr 0 n = ptr.take n.toNat := by
  simp [span]

/-- On a region of at least `size` bytes the loop of `istrue_array` ends, and
has added to `zeros` the number of zero bytes among `ptr[i] .. ptr[size-1]`. -/
theorem istrue_array_loop_eq (ptr : List Byte) (size : Int) (hl : size ≤ ptr.length) :
    ∀ (k : Nat) (i zeros : Int), 0 ≤ i → (size - i).toNat = k →
      istrue_array_loop ptr size i zeros = some (zeros + ((span ptr i size).count 0 : Nat)) := by
  intro k
  induction k with
  | zero =>
    intro i zeros _ hk
    have hlt : ¬ i < size := by omega
    rw [istrue_array_loop, if_neg hlt, span_of_ge ptr i size hlt]
    simp
  | succ k ih =>
    intro i zeros h0 hk
    have hlt : i < size := by omega
    have hi : i.toNat < ptr.length := by omega
    rw [istrue_array_loop, if_pos hlt, readByte_of_lt ptr i h0 hi, span_of_lt ptr i size h0 hlt hi]
    simp only
    rw [ih (i + 1) _ (by omega) (by omega), List.count_cons]
    by_cases hb : ptr[i.toNat] = 0
    · simp [hb]; omega
    · simp [hb]

/-- On a region of at least `size` bytes the loop of `isfalse_array` ends, with
1 exactly when the bytes `ptr[i] .. ptr[size-1]` are all zero. -/
theorem isfalse_array_loop_eq (ptr : List Byte) (size : Int) (hl : size ≤ ptr.length) :
    ∀ (k : Nat) (i : Int), 0 ≤ i → (size - i).toNat = k →
      isfalse_array_loop ptr size i
        = some (if ∀ b ∈ span ptr i size, b = 0 then 1 else 0) := by
  intro k
  induction k with
  | zero =>
    intro i _ hk
    have hlt : ¬ i < size := by omega
    rw [isfalse_array_loop, if_neg hlt, span_of_ge ptr i size hlt]
    simp
  | succ k ih =>
    intro i h0 hk
    have hlt : i < size := by omega
    have hi : i.toNat < ptr.length := by omega
    rw [isfalse_array_loop, if_pos hlt, readByte_of_lt ptr i h0 hi, span_of_lt ptr i size h0 hlt hi]
    simp only
    by_cases hb : ptr[i.toNat] = 0
    · rw [if_neg (by simpa using hb), ih (i + 1) (by omega) (by omega)]
      simp [hb]
    · rw [if_pos hb]
      simp [hb]

/-! ## The array predicates on a region that holds the declared bytes -/

theorem all_take_iff (ptr : List Byte) (n : Int) (hl : n ≤ ptr.length) :
    (∀ b ∈ ptr.take n.toNat, b = 0) ↔ ∀ i : Nat, (i : Int) < n → ptr[i]? = some 0 := by
  constructor
  · intro h i hi
    have hi2 : i < ptr.length := by omega
    have hi3 : i < (ptr.take n.toNat).length := by
      rw [List.length_take]; omega
    have hm : (ptr.take n.toNat)[i] ∈ ptr.take n.toNat := List.getElem_mem hi3
    have := h _ hm
    rw [List.getElem_take] at this
    rw [List.getElem?_eq_getElem hi2, this]
  · intro h b hb
    obtain ⟨i, hi, rfl⟩ := List.mem_iff_getElem.mp hb
    rw [List.length_take] at hi
    have hi2 : i < ptr.length := by omega
    have := h i (by omega)
    rw [List.getElem?_eq_getElem hi2] at this
    rw [List.getElem_take]
    exact Option.some.inj this

theorem any_take_iff (ptr : List Byte) (n : Int) (hl : n ≤ ptr.length) :
    (¬ ∀ b ∈ ptr.take n.toNat, b = 0)
      ↔ ∃ i : Nat, (i : Int) < n ∧ ∃ b, ptr[i]? = some b ∧ b ≠ 0 := by
  rw [all_take_iff ptr n hl]
  constructor
  · intro h
    by_contra hc
    apply h
    intro i hi
    have hi2 : i < ptr.length := by omega
    rw [List.getElem?_eq_getElem hi2]
    by_contra hne
    exact hc ⟨i, hi, ptr[i], List.getElem?_eq_getElem hi2, fun h0 => hne (by rw [h0])⟩
  · rintro ⟨i, hi, b, hb, hne⟩ h
    rw [h i hi] at hb
    exact hne (Option.some.inj hb).symm

theorem count_zero_eq_length_iff (l : List Byte) :
    l.count 0 = l.length ↔ ∀ b ∈ l, b = 0 := by
  rw [List.count_eq_length]
  exact ⟨fun h b hb => (h b hb).symm, fun h b hb => (h b hb).symm⟩

/-- On a region of at least `size` bytes, `isfalse_array` returns 1 exactly
when the first `size` bytes are all zero (none at all when `size ≤ 0`). -/
theorem isfalse_array_eq (ptr : List Byte) (size : Int) (hl : size ≤ ptr.length) :
    isfalse_array (some ptr) size
      = some (if ∀ b ∈ ptr.take size.toNat, b = 0 then 1 else 0) := by
  simp only [isfalse_array]
  by_cases h0 : size = 0
  · simp [h0]
  · simp only [if_neg h0]
    rw [isfalse_array_loop_eq ptr size hl _ 0 (le_refl 0) rfl, span_zero]

/-- On a region of at least `size ≥ 0` bytes, `istrue_array` returns 1 exactly
when one of the first `size` bytes is not zero. -/
theorem istrue_array_eq (ptr : List Byte) (size : Int) (h0 : 0 ≤ size)
    (hl : size ≤ ptr.length) :
    istrue_array (some ptr) size
      = some (if ∀ b ∈ ptr.take size.toNat, b = 0 then 0 else 1) := by
  simp only [istrue_array]
  by_cases hz : size = 0
  · simp [hz]
  · simp only [if_neg hz]
    rw [istrue_array_loop_eq ptr size hl _ 0 0 (le_refl 0) rfl, span_zero]
    simp only [zero_add]
    have hlen : (ptr.take size.toNat).length = size.toNat := by
      rw [List.length_take]; omega
    have hcnt := count_zero_eq_length_iff (ptr.take size.toNat)
    by_cases hall : ∀ b ∈ ptr.take size.toNat, b = 0
    · have hc := hcnt.mpr hall
      have : ((List.count 0 (ptr.take size.toNat) : Nat) : Int) = size := by
        rw [hc, hlen]; omega
      rw [if_pos hall, this]
      simp
    · have hc : (ptr.take size.toNat).count 0 ≠ (ptr.take size.toNat).length :=
        fun hc => hall (hcnt.mp hc)
      have : ((List.count 0 (ptr.take size.toNat) : Nat) : Int) ≠ size := by
        rw [hlen] at hc; omega
      rw [if_neg hall]
      simp [this]

/-- With a negative `size` the loop of `istrue_array` is not entered, `zeros`
stays 0 and differs from `size`. -/
theorem istrue_array_of_neg (ptr : List Byte) (size : Int) (h : size < 0) :
    istrue_array (some ptr) size = some 1 := by
  have hz : size ≠ 0 := by omega
  have hlt : ¬ (0 : Int) < size := by omega
  have hne : (0 : Int) ≠ size := by omega
  simp only [istrue_array]
  rw [if_neg hz, istrue_array_loop, if_neg hlt]
  simp [hne]


/-! ## Dispatch on the declared size -/

/-- For an `int`, the comparison `size == sizeof(char)` holds for 1 alone. -/
theorem toSizeT_eq_sizeof_char (size : Int) (hs : isInt size) :
    toSizeT size = sizeof_char ↔ size = 1 := by
  unfold isInt INT_MIN INT_MAX at hs
  unfold toSizeT sizeof_char
  omega

theorem istrue_present (ptr : List Byte) (size : Int) (hs : isInt size) (h0 : size ≠ 0) :
    istrue (some ptr) size
      = if size = 1 then istrue_scalar (some ptr) else istrue_array (some ptr) size := by
  simp only [istrue, if_neg h0, toSizeT_eq_sizeof_char size hs]

theorem isfalse_present (ptr : List Byte) (size : Int) (hs : isInt size) (h0 : size ≠ 0) :
    isfalse (some ptr) size
      = if size = 1 then isfalse_scalar (some ptr) else isfalse_array (some ptr) size := by
  simp only [isfalse, if_neg h0, toSizeT_eq_sizeof_char size hs]

theorem istrue_scalar_cons (b : Byte) (rest : List Byte) :
    istrue_scalar (some (b :: rest)) = some (if b ≠ 0 then 1 else 0) := by
  simp [istrue_scalar, readByte]

theorem isfalse_scalar_cons (b : Byte) (rest : List Byte) :
    isfalse_scalar (some (b :: rest)) = some (if b = 0 then 1 else 0) := by
  simp [isfalse_scalar, readByte]

theorem istrue_scalar_nil : istrue_scalar (some []) = none := by
  simp [istrue_scalar, readByte]

/-- For `n ≥ 0` on a reference backed by at least `n` bytes, `istrue_array`
returns 1 exactly when the reference is present, `n > 0` and one of the first
`n` bytes is not zero, and 0 otherwise. -/
theorem istrue_array_iff_of_nonneg (ref : Ref) (n : Int) (h0 : 0 ≤ n) (hb : backed ref n) :
    (istrue_array ref n = some 1 ↔
      ∃ ptr, ref = some ptr ∧ 0 < n ∧
        ∃ i : Nat, (i : Int) < n ∧ ∃ b, ptr[i]? = some b ∧ b ≠ 0) ∧
    (istrue_array ref n = some 1 ∨ istrue_array ref n = some 0) := by
  cases ref with
  | none => simp [istrue_array]
  | some ptr =>
    have hl : n ≤ ptr.length := hb ptr rfl
    have hany := any_take_iff ptr n hl
    rw [istrue_array_eq ptr n h0 hl]
    by_cases h : ∀ b ∈ ptr.take n.toNat, b = 0
    · rw [if_pos h]
      refine ⟨⟨fun hc => absurd hc (by decide), ?_⟩, Or.inr rfl⟩
      rintro ⟨p, hp, -, hex⟩
      cases hp
      exact absurd h (hany.mpr hex)
    · rw [if_neg h]
      refine ⟨⟨fun _ => ⟨ptr, rfl, ?_, hany.mp h⟩, fun _ => rfl⟩, Or.inl rfl⟩
      obtain ⟨i, hi, -⟩ := hany.mp h
      omega

/-! ## The claims -/

/-- C1 (defect of the code). `istrue_array` is asked to return 1 only for a
present reference, `n > 0` and a non-zero byte among the first `n`; on the
two-byte all-zero region with `n = -1` the loop is not entered, `zeros` stays
0, differs from `size`, and the function returns 1. -/
theorem istrue_array_negative_size_returns_one :
    istrue_array (some [0, 0]) (-1) = some 1 ∧ ¬ (0 : Int) < -1 ∧
      ∀ b ∈ ([0, 0] : List Byte), b = 0 :=
  ⟨istrue_array_of_neg [0, 0] (-1) (by decide), by decide, by simp⟩

/-- C2. For a reference backed by at least `n` bytes, `isfalse_array ref n`
returns 1 exactly when `ref` is `NULL`, or `n = 0`, or every one of the first
`n` bytes is zero; otherwise it returns 0. -/
theorem isfalse_array_iff (ref : Ref) (n : Int) (hb : backed ref n) :
    (isfalse_array ref n = some 1 ↔
      (ref = none ∨ n = 0 ∨
        ∃ ptr, ref = some ptr ∧ ∀ i : Nat, (i : Int) < n → ptr[i]? = some 0)) ∧
    (¬ (ref = none ∨ n = 0 ∨
        ∃ ptr, ref = some ptr ∧ ∀ i : Nat, (i : Int) < n → ptr[i]? = some 0) →
      isfalse_array ref n = some 0) := by
  cases ref with
  | none => simp [isfalse_array]
  | some ptr =>
    have hl : n ≤ ptr.length := hb ptr rfl
    have hall := all_take_iff ptr n hl
    have hP : (∃ p, some ptr = some p ∧ ∀ i : Nat, (i : Int) < n → p[i]? = some 0)
        ↔ ∀ b ∈ ptr.take n.toNat, b = 0 :=
      ⟨fun ⟨p, hp, h⟩ => by cases hp; exact hall.mpr h, fun h => ⟨ptr, rfl, hall.mp h⟩⟩
    rw [isfalse_array_eq ptr n hl, hP]
    by_cases h : ∀ b ∈ ptr.take n.toNat, b = 0
    · rw [if_pos h]
      exact ⟨⟨fun _ => Or.inr (Or.inr h), fun _ => rfl⟩,
        fun hn => absurd (Or.inr (Or.inr h)) hn⟩
    · have hz : n ≠ 0 := by
        intro hz
        apply h
        subst hz
        simp
      rw [if_neg h]
      refine ⟨⟨fun h1 => absurd h1 (by simp), fun hc => ?_⟩, fun _ => rfl⟩
      rcases hc with hc | hc | hc
      · exact absurd hc (by simp)
      · exact absurd hc hz
      · exact absurd hc h

/-- Witness of C2: the three-byte all-zero region with `n = 3` is false. -/
theorem isfalse_array_iff_witness :
    backed (some [0, 0, 0]) 3 ∧ isfalse_array (some [0, 0, 0]) 3 = some 1 :=
  have hb : backed (some [0, 0, 0]) 3 := by
    intro ptr h; cases h; decide
  ⟨hb, (isfalse_array_iff (some [0, 0, 0]) 3 hb).1.mpr
    (Or.inr (Or.inr ⟨[0, 0, 0], rfl, by
      intro i hi
      have : i < 3 := by omega
      interval_cases i <;> rfl⟩))⟩

/-- C3. `istrue_scalar` returns 1 exactly for a present reference whose first
byte is non-zero; its result on a present region is a function of the first
byte alone, so two regions with the same first byte get the same result, and
the region `[0,1,0,0]` is not scalar-true. -/
theorem istrue_scalar_first_byte_only :
    (∀ ref : Ref, istrue_scalar ref = some 1 ↔ ∃ b rest, ref = some (b :: rest) ∧ b ≠ 0) ∧
    istrue_scalar none = some 0 ∧
    (∀ (b : Byte) (rest : List Byte),
      istrue_scalar (some (b :: rest)) = some (if b ≠ 0 then 1 else 0)) ∧
    (∀ (b : Byte) (r1 r2 : List Byte),
      istrue_scalar (some (b :: r1)) = istrue_scalar (some (b :: r2))) ∧
    istrue_scalar (some [0, 1, 0, 0]) = some 0 := by
  refine ⟨?_, rfl, istrue_scalar_cons, ?_, ?_⟩
  · intro ref
    cases ref with
    | none => simp [istrue_scalar]
    | some ptr =>
      cases ptr with
      | nil => simp [istrue_scalar_nil]
      | cons b rest =>
        rw [istrue_scalar_cons]
        by_cases hb : b = 0 <;> simp [hb]
  · intro b r1 r2
    rw [istrue_scalar_cons, istrue_scalar_cons]
  · rw [istrue_scalar_cons]; rfl

/-- C4. On the `NULL` reference, whatever the size, `istrue` returns 0 and
`isfalse` returns 1. -/
theorem null_reference_is_false (size : Int) :
    istrue none size = some 0 ∧ isfalse none size = some 1 :=
  ⟨rfl, rfl⟩

/-- C5. With a declared size of 0, whatever the reference and the bytes behind
it, `istrue` returns 0 and `isfalse` returns 1. -/
theorem zero_size_is_false (ref : Ref) :
    istrue ref 0 = some 0 ∧ isfalse ref 0 = some 1 := by
  cases ref <;> simp [istrue, isfalse]

/-- C6. For a present reference and an `int` size other than 0, the
dispatchers hand over to the scalar predicates when the size is 1 and to the
array predicates, with the same size, otherwise. -/
theorem dispatch_on_size (ptr : List Byte) (size : Int) (hs : isInt size) (h0 : size ≠ 0) :
    (size = 1 →
      istrue (some ptr) size = istrue_scalar (some ptr) ∧
      isfalse (some ptr) size = isfalse_scalar (some ptr)) ∧
    (size ≠ 1 →
      istrue (some ptr) size = istrue_array (some ptr) size ∧
      isfalse (some ptr) size = isfalse_array (some ptr) size) := by
  rw [istrue_present ptr size hs h0, isfalse_present ptr size hs h0]
  constructor
  · intro h1; simp [h1]
  · intro h1; simp [h1]

/-- Witness of C6: size 2 on a two-byte region goes to the array predicates. -/
theorem dispatch_on_size_witness :
    isInt 2 ∧ (2 : Int) ≠ 0 ∧ (2 : Int) ≠ 1 ∧
      istrue (some [0, 7]) 2 = istrue_array (some [0, 7]) 2 ∧
      isfalse (some [0, 7]) 2 = isfalse_array (some [0, 7]) 2 :=
  ⟨by decide, by decide, by decide,
    (dispatch_on_size [0, 7] 2 (by decide) (by decide)).2 (by decide)⟩


/-- For an `int` size of at least 2 on a region that holds that many bytes,
`istrue` is the array scan. -/
theorem istrue_of_two_le (ptr : List Byte) (size : Int) (hs : isInt size)
    (h2 : 2 ≤ size) (hl : size ≤ ptr.length) :
    istrue (some ptr) size = some (if ∀ b ∈ ptr.take size.toNat, b = 0 then 0 else 1) := by
  rw [istrue_present ptr size hs (by omega), if_neg (by omega),
    istrue_array_eq ptr size (by omega) hl]

/-- C7. For a present region and a declared size of at least 2 that the region
holds, `istrue` returns 1 exactly when one of the first `size` bytes is not
zero, and 0 otherwise; the 20 bytes of `{0,0,0,0,0}` give 0, the 20 bytes of
`{0,0,1,0,0}` give 1 and the 4 bytes of the float 3.14 give 1. -/
theorem istrue_iff_some_byte_nonzero (ptr : List Byte) (size : Int) (hs : isInt size)
    (h2 : 2 ≤ size) (hl : size ≤ ptr.length) :
    (istrue (some ptr) size = some 1 ↔
      ∃ i : Nat, (i : Int) < size ∧ ∃ b, ptr[i]? = some b ∧ b ≠ 0) ∧
    (istrue (some ptr) size = some 1 ∨ istrue (some ptr) size = some 0) ∧
    istrue (some (int_array [0, 0, 0, 0, 0])) 20 = some 0 ∧
    istrue (some (int_array [0, 0, 1, 0, 0])) 20 = some 1 ∧
    istrue (some float_3_14) 4 = some 1 := by
  refine ⟨?_, ?_, ?_, ?_, ?_⟩
  · rw [istrue_of_two_le ptr size hs h2 hl, ← any_take_iff ptr size hl]
    by_cases h : ∀ b ∈ ptr.take size.toNat, b = 0
    · simp [h]
    · rw [if_neg h]
      exact ⟨fun _ => h, fun _ => rfl⟩
  · rw [istrue_of_two_le ptr size hs h2 hl]
    by_cases h : ∀ b ∈ ptr.take size.toNat, b = 0
    · exact Or.inr (by rw [if_pos h])
    · exact Or.inl (by rw [if_neg h])
  · rw [istrue_of_two_le _ 20 (by decide) (by decide) (by decide)]
    simp [int_array, int_bytes, byteOf]
  · rw [istrue_of_two_le _ 20 (by decide) (by decide) (by decide)]
    simp [int_array, int_bytes, byteOf]
  · rw [istrue_of_two_le _ 4 (by decide) (by decide) (by decide)]
    simp [float_3_14]

/-- Witness of C7: size 3 on the region `[0,0,9]`, whose third byte is not
zero. -/
theorem istrue_iff_some_byte_nonzero_witness :
    isInt 3 ∧ (2 : Int) ≤ 3 ∧ (3 : Int) ≤ ([0, 0, 9] : List Byte).length ∧
      istrue (some [0, 0, 9]) 3 = some 1 :=
  ⟨by decide, by decide, by decide,
    (istrue_iff_some_byte_nonzero [0, 0, 9] 3 (by decide) (by decide) (by decide)).1.mpr
      ⟨2, by decide, 9, rfl, by decide⟩⟩

/-- C8. Scalar duality: for `NULL` and for every reference to at least one
byte, `istrue_scalar` returns the logical negation of what `isfalse_scalar`
returns, and exactly one of the two returns 1. -/
theorem scalar_duality (ref : Ref) (hb : backed ref 1) :
    ∃ t f : Int, istrue_scalar ref = some t ∧ isfalse_scalar ref = some f ∧
      t = (if f = 0 then 1 else 0) ∧ ((t = 1 ∧ f = 0) ∨ (t = 0 ∧ f = 1)) := by
  cases ref with
  | none => exact ⟨0, 1, rfl, rfl, by decide, Or.inr ⟨rfl, rfl⟩⟩
  | some ptr =>
    cases ptr with
    | nil =>
      have := hb [] rfl
      simp at this
    | cons b rest =>
      rw [istrue_scalar_cons, isfalse_scalar_cons]
      by_cases h : b = 0
      · exact ⟨0, 1, by simp [h], by simp [h], by decide, Or.inr ⟨rfl, rfl⟩⟩
      · exact ⟨1, 0, by simp [h], by simp [h], by decide, Or.inl ⟨rfl, rfl⟩⟩

/-- Witness of C8: the one-byte region `[5]`. -/
theorem scalar_duality_witness :
    backed (some [5]) 1 ∧
      ∃ t f : Int, istrue_scalar (some [5]) = some t ∧ isfalse_scalar (some [5]) = some f ∧
        t = (if f = 0 then 1 else 0) ∧ ((t = 1 ∧ f = 0) ∨ (t = 0 ∧ f = 1)) :=
  have hb : backed (some [5]) 1 := by
    intro ptr h; cases h; decide
  ⟨hb, scalar_duality (some [5]) hb⟩

/-- C9 (defect of the code). The two array predicates are asked never to be
true together; on the one-byte region `[0]` with `n = -1` neither loop is
entered and both `isfalse_array` and `istrue_array` return 1. -/
theorem array_predicates_both_one_on_negative_size :
    isfalse_array (some [0]) (-1) = some 1 ∧ istrue_array (some [0]) (-1) = some 1 :=
  ⟨by rw [isfalse_array_eq [0] (-1) (by decide)]; simp,
    istrue_array_of_neg [0] (-1) (by decide)⟩

/-- C10, refuted as stated: no array, mixed or not, taken with its length,
makes `istrue_array` and `isfalse_array` both return 0. -/
theorem no_mixed_array_is_neither :
    ¬ ∃ ptr : List Byte, (∃ b ∈ ptr, b = 0) ∧ (∃ b ∈ ptr, b ≠ 0) ∧
        istrue_array (some ptr) ptr.length = some 0 ∧
        isfalse_array (some ptr) ptr.length = some 0 := by
  rintro ⟨ptr, -, -, ht, hf⟩
  rw [istrue_array_eq ptr ptr.length (by omega) (le_refl _)] at ht
  rw [isfalse_array_eq ptr ptr.length (le_refl _)] at hf
  by_cases h : ∀ b ∈ ptr.take (ptr.length : Int).toNat, b = 0
  · rw [if_pos h] at hf
    exact absurd hf (by decide)
  · rw [if_neg h] at ht
    exact absurd ht (by decide)

/-- C10, amended: on a region that holds `n` bytes the converse implication
holds, `istrue_array` returning 0 implies `isfalse_array` returning 1, the two
never both return 0, and on a mixed array taken with its length `istrue_array`
returns 1 and `isfalse_array` returns 0. -/
theorem array_predicates_never_both_zero (ref : Ref) (n : Int) (hb : backed ref n) :
    (istrue_array ref n = some 0 → isfalse_array ref n = some 1) ∧
    ¬ (istrue_array ref n = some 0 ∧ isfalse_array ref n = some 0) ∧
    (∀ ptr : List Byte, ref = some ptr → n = ptr.length → (∃ b ∈ ptr, b ≠ 0) →
      istrue_array ref n = some 1 ∧ isfalse_array ref n = some 0) := by
  cases ref with
  | none => simp [istrue_array, isfalse_array]
  | some ptr =>
    have hl : n ≤ ptr.length := hb ptr rfl
    rw [isfalse_array_eq ptr n hl]
    by_cases hn : n < 0
    · rw [istrue_array_of_neg ptr n hn]
      refine ⟨fun h => absurd h (by decide), fun h => absurd h.1 (by decide), ?_⟩
      intro p _ hp
      omega
    · rw [istrue_array_eq ptr n (by omega) hl]
      by_cases h : ∀ b ∈ ptr.take n.toNat, b = 0
      · rw [if_pos h, if_pos h]
        refine ⟨fun _ => rfl, fun hc => absurd hc.2 (by decide), ?_⟩
        intro p hp hlen ⟨b, hbm, hb0⟩
        cases hp
        subst hlen
        rw [Int.toNat_ofNat, List.take_length] at h
        exact absurd (h b hbm) hb0
      · rw [if_neg h, if_neg h]
        exact ⟨fun hc => absurd hc (by decide), fun hc => absurd hc.1 (by decide),
          fun _ _ _ _ => ⟨rfl, rfl⟩⟩

/-- Witness of C10 amended: the mixed array `[0,0,1,0,0]` with `n = 5` is
true and not false. -/
theorem array_predicates_never_both_zero_witness :
    backed (some [0, 0, 1, 0, 0]) 5 ∧
      istrue_array (some [0, 0, 1, 0, 0]) 5 = some 1 ∧
      isfalse_array (some [0, 0, 1, 0, 0]) 5 = some 0 :=
  have hb : backed (some [0, 0, 1, 0, 0]) 5 := by
    intro ptr h; cases h; decide
  ⟨hb, (array_predicates_never_both_zero (some [0, 0, 1, 0, 0]) 5 hb).2.2
    [0, 0, 1, 0, 0] rfl (by decide) ⟨1, by simp, by decide⟩⟩

/-! ## Reads and faults -/

/-- The loop of `istrue_array` fails exactly when one of the positions it
reads lies outside the region. -/
theorem istrue_array_loop_none_iff (ptr : List Byte) (size : Int) :
    ∀ (k : Nat) (i zeros : Int), (size - i).toNat = k →
      (istrue_array_loop ptr size i zeros = none ↔
        ∃ j ∈ istrue_array_loop_reads ptr size i, readByte ptr j = none) := by
  intro k
  induction k with
  | zero =>
    intro i zeros hk
    have hlt : ¬ i < size := by omega
    rw [istrue_array_loop, istrue_array_loop_reads, if_neg hlt, if_neg hlt]
    simp
  | succ k ih =>
    intro i zeros hk
    have hlt : i < size := by omega
    rw [istrue_array_loop, istrue_array_loop_reads, if_pos hlt, if_pos hlt]
    cases hr : readByte ptr i with
    | none => simp [hr]
    | some b =>
      simp only
      rw [ih (i + 1) _ (by omega)]
      simp [hr]

/-- The loop of `isfalse_array` fails exactly when one of the positions it
reads lies outside the region. -/
theorem isfalse_array_loop_none_iff (ptr : List Byte) (size : Int) :
    ∀ (k : Nat) (i : Int), (size - i).toNat = k →
      (isfalse_array_loop ptr size i = none ↔
        ∃ j ∈ isfalse_array_loop_reads ptr size i, readByte ptr j = none) := by
  intro k
  induction k with
  | zero =>
    intro i hk
    have hlt : ¬ i < size := by omega
    rw [isfalse_array_loop, isfalse_array_loop_reads, if_neg hlt, if_neg hlt]
    simp
  | succ k ih =>
    intro i hk
    have hlt : i < size := by omega
    rw [isfalse_array_loop, isfalse_array_loop_reads, if_pos hlt, if_pos hlt]
    cases hr : readByte ptr i with
    | none => simp [hr]
    | some b =>
      simp only
      by_cases hb : b = 0
      · rw [if_neg (by simpa using hb), if_neg (by simpa using hb), ih (i + 1) (by omega)]
        simp [hr]
      · rw [if_pos hb, if_pos hb]
        simp [hr]

/-- The loop of `istrue_array` entered at `i` reads positions `i .. size-1`
only. -/
theorem istrue_array_loop_reads_bounds (ptr : List Byte) (size : Int) :
    ∀ (k : Nat) (i : Int), (size - i).toNat = k →
      ∀ j ∈ istrue_array_loop_reads ptr size i, i ≤ j ∧ j < size := by
  intro k
  induction k with
  | zero =>
    intro i hk
    have hlt : ¬ i < size := by omega
    rw [istrue_array_loop_reads, if_neg hlt]
    simp
  | succ k ih =>
    intro i hk j hj
    have hlt : i < size := by omega
    rw [istrue_array_loop_reads, if_pos hlt] at hj
    cases hr : readByte ptr i with
    | none =>
      rw [hr] at hj
      simp only [List.mem_singleton] at hj
      omega
    | some b =>
      rw [hr] at hj
      simp only [List.mem_cons] at hj
      rcases hj with hj | hj
      · omega
      · have := ih (i + 1) (by omega) j hj
        omega

/-- The loop of `isfalse_array` entered at `i` reads positions `i .. size-1`
only. -/
theorem isfalse_array_loop_reads_bounds (ptr : List Byte) (size : Int) :
    ∀ (k : Nat) (i : Int), (size - i).toNat = k →
      ∀ j ∈ isfalse_array_loop_reads ptr size i, i ≤ j ∧ j < size := by
  intro k
  induction k with
  | zero =>
    intro i hk
    have hlt : ¬ i < size := by omega
    rw [isfalse_array_loop_reads, if_neg hlt]
    simp
  | succ k ih =>
    intro i hk j hj
    have hlt : i < size := by omega
    rw [isfalse_array_loop_reads, if_pos hlt] at hj
    cases hr : readByte ptr i with
    | none =>
      rw [hr] at hj
      simp only [List.mem_singleton] at hj
      omega
    | some b =>
      rw [hr] at hj
      simp only at hj
      by_cases hb : b = 0
      · rw [if_neg (by simpa using hb)] at hj
        simp only [List.mem_cons] at hj
        rcases hj with hj | hj
        · omega
        · have := ih (i + 1) (by omega) j hj
          omega
      · rw [if_pos hb] at hj
        simp only [List.mem_singleton] at hj
        omega

theorem readByte_ne_none (ptr : List Byte) (j : Int) (h0 : 0 ≤ j) (hl : j < ptr.length) :
    readByte ptr j ≠ none := by
  rw [readByte_of_lt ptr j h0 (by omega)]
  simp

/-! ## Scalar and array predicates at size 1 -/

/-- For an `int` size of at least 2 on a region that holds that many bytes,
`isfalse` is the array scan. -/
theorem isfalse_of_two_le (ptr : List Byte) (size : Int) (hs : isInt size)
    (h2 : 2 ≤ size) (hl : size ≤ ptr.length) :
    isfalse (some ptr) size = some (if ∀ b ∈ ptr.take size.toNat, b = 0 then 1 else 0) := by
  rw [isfalse_present ptr size hs (by omega), if_neg (by omega),
    isfalse_array_eq ptr size hl]

theorem isfalse_scalar_nil : isfalse_scalar (some []) = none := by
  simp [isfalse_scalar, readByte]

/-- On any present region, `istrue_scalar` is `istrue_array` with size 1. -/
theorem istrue_scalar_eq_array_one (ptr : List Byte) :
    istrue_scalar (some ptr) = istrue_array (some ptr) 1 := by
  cases ptr with
  | nil =>
    rw [istrue_scalar_nil]
    simp [istrue_array, istrue_array_loop, readByte]
  | cons b rest =>
    rw [istrue_scalar_cons, istrue_array_eq (b :: rest) 1 (by decide)
      (by simp only [List.length_cons]; omega)]
    by_cases hb : b = 0 <;> simp [hb]

/-- On any present region, `isfalse_scalar` is `isfalse_array` with size 1. -/
theorem isfalse_scalar_eq_array_one (ptr : List Byte) :
    isfalse_scalar (some ptr) = isfalse_array (some ptr) 1 := by
  cases ptr with
  | nil =>
    rw [isfalse_scalar_nil]
    simp [isfalse_array, isfalse_array_loop, readByte]
  | cons b rest =>
    rw [isfalse_scalar_cons, isfalse_array_eq (b :: rest) 1
      (by simp only [List.length_cons]; omega)]
    by_cases hb : b = 0 <;> simp [hb]

/-- For an `int` size, `istrue` returns what `istrue_array` returns. -/
theorem istrue_eq_istrue_array (ref : Ref) (size : Int) (hs : isInt size) :
    istrue ref size = istrue_array ref size := by
  cases ref with
  | none => rfl
  | some ptr =>
    by_cases h0 : size = 0
    · subst h0
      simp [istrue, istrue_array]
    · rw [istrue_present ptr size hs h0]
      by_cases h1 : size = 1
      · subst h1
        rw [if_pos rfl, istrue_scalar_eq_array_one]
      · rw [if_neg h1]

/-- For an `int` size, `isfalse` returns what `isfalse_array` returns. -/
theorem isfalse_eq_isfalse_array (ref : Ref) (size : Int) (hs : isInt size) :
    isfalse ref size = isfalse_array ref size := by
  cases ref with
  | none => rfl
  | some ptr =>
    by_cases h0 : size = 0
    · subst h0
      simp [isfalse, isfalse_array]
    · rw [isfalse_present ptr size hs h0]
      by_cases h1 : size = 1
      · subst h1
        rw [if_pos rfl, isfalse_scalar_eq_array_one]
      · rw [if_neg h1]

/-- On a region that holds `size` bytes `istrue_array` returns 0 or 1. -/
theorem istrue_array_zero_or_one (ptr : List Byte) (size : Int) (hl : size ≤ ptr.length) :
    istrue_array (some ptr) size = some 0 ∨ istrue_array (some ptr) size = some 1 := by
  by_cases hn : size < 0
  · exact Or.inr (istrue_array_of_neg ptr size hn)
  · rw [istrue_array_eq ptr size (by omega) hl]
    by_cases h : ∀ b ∈ ptr.take size.toNat, b = 0
    · exact Or.inl (by rw [if_pos h])
    · exact Or.inr (by rw [if_neg h])

/-- On a region that holds `size` bytes `isfalse_array` returns 0 or 1. -/
theorem isfalse_array_zero_or_one (ptr : List Byte) (size : Int) (hl : size ≤ ptr.length) :
    isfalse_array (some ptr) size = some 0 ∨ isfalse_array (some ptr) size = some 1 := by
  rw [isfalse_array_eq ptr size hl]
  by_cases h : ∀ b ∈ ptr.take size.toNat, b = 0
  · exact Or.inr (by rw [if_pos h])
  · exact Or.inl (by rw [if_neg h])

/-- With a negative `size` the loop of `isfalse_array` is not entered. -/
theorem isfalse_array_of_neg (ptr : List Byte) (size : Int) (h : size < 0) :
    isfalse_array (some ptr) size = some 1 := by
  have hz : size ≠ 0 := by omega
  have hlt : ¬ (0 : Int) < size := by omega
  simp only [isfalse_array]
  rw [if_neg hz, isfalse_array_loop, if_neg hlt]

/-- The low byte of a 32-bit `int` decides `istrue(&v, 1)`. -/
theorem istrue_int_bytes (v : Int) :
    istrue (some (int_bytes v)) 1 = some (if v % 256 ≠ 0 then 1 else 0) := by
  rw [istrue_present _ 1 (by decide) (by decide), if_pos rfl]
  unfold int_bytes
  rw [istrue_scalar_cons]
  have hiff : byteOf (v % 2 ^ 32).toNat ≠ 0 ↔ v % 256 ≠ 0 := by
    unfold byteOf
    rw [Ne, Fin.ext_iff]
    simp only [Fin.val_zero]
    omega
  by_cases h : v % 256 ≠ 0
  · rw [if_pos h, if_pos (hiff.mpr h)]
  · rw [if_neg h, if_neg (fun hc => h (hiff.mp hc))]

/-! ## The claims, continued -/

/-- C11. The dispatchers are mirror images: for an `int` size that is not
negative and a reference (`NULL` or present) whose region holds at least
`size` bytes, `istrue` and `isfalse` both return, and `istrue` returns the
logical negation of what `isfalse` returns. -/
theorem dispatchers_mirror (ref : Ref) (size : Int) (hs : isInt size) (h0 : 0 ≤ size)
    (hb : backed ref size) :
    ∃ t f : Int, istrue ref size = some t ∧ isfalse ref size = some f ∧
      t = (if f = 0 then 1 else 0) := by
  rw [istrue_eq_istrue_array ref size hs, isfalse_eq_isfalse_array ref size hs]
  cases ref with
  | none => exact ⟨0, 1, rfl, rfl, by decide⟩
  | some ptr =>
    have hl : size ≤ ptr.length := hb ptr rfl
    rw [istrue_array_eq ptr size h0 hl, isfalse_array_eq ptr size hl]
    by_cases h : ∀ b ∈ ptr.take size.toNat, b = 0
    · rw [if_pos h, if_pos h]
      exact ⟨0, 1, rfl, rfl, by decide⟩
    · rw [if_neg h, if_neg h]
      exact ⟨1, 0, rfl, rfl, by decide⟩

/-- Witness of C11: the region `[0,3]` with size 2 is true and not false. -/
theorem dispatchers_mirror_witness :
    isInt 2 ∧ (0 : Int) ≤ 2 ∧ backed (some [0, 3]) 2 ∧
      ∃ t f : Int, istrue (some [0, 3]) 2 = some t ∧ isfalse (some [0, 3]) 2 = some f ∧
        t = (if f = 0 then 1 else 0) :=
  have hb : backed (some [0, 3]) 2 := by
    intro ptr h; cases h; decide
  ⟨by decide, by decide, hb, dispatchers_mirror (some [0, 3]) 2 (by decide) (by decide) hb⟩

/-- C12. Totality: for an `int` size and a reference (`NULL` or present) whose
region holds at least `size` bytes, each of `istrue_array`, `istrue`,
`isfalse_array` and `isfalse` returns 0 or 1, and so do `istrue_scalar` and
`isfalse_scalar` on `NULL` and on a region of at least one byte; a `NULL`
reference, size 0, a present reference with size 0 and a negative size are
among these inputs. -/
theorem six_operations_return_zero_or_one (ref : Ref) (size : Int) (hs : isInt size)
    (hb : backed ref size) :
    (backed ref 1 →
      (istrue_scalar ref = some 0 ∨ istrue_scalar ref = some 1) ∧
      (isfalse_scalar ref = some 0 ∨ isfalse_scalar ref = some 1)) ∧
    (istrue_array ref size = some 0 ∨ istrue_array ref size = some 1) ∧
    (istrue ref size = some 0 ∨ istrue ref size = some 1) ∧
    (isfalse_array ref size = some 0 ∨ isfalse_array ref size = some 1) ∧
    (isfalse ref size = some 0 ∨ isfalse ref size = some 1) := by
  rw [istrue_eq_istrue_array ref size hs, isfalse_eq_isfalse_array ref size hs]
  cases ref with
  | none =>
    exact ⟨fun _ => ⟨Or.inl rfl, Or.inr rfl⟩, Or.inl rfl, Or.inl rfl, Or.inr rfl, Or.inr rfl⟩
  | some ptr =>
    have hl : size ≤ ptr.length := hb ptr rfl
    have ht := istrue_array_zero_or_one ptr size hl
    have hf := isfalse_array_zero_or_one ptr size hl
    refine ⟨fun h1 => ?_, ht, ht, hf, hf⟩
    cases ptr with
    | nil =>
      have := h1 [] rfl
      simp at this
    | cons b rest =>
      rw [istrue_scalar_cons, isfalse_scalar_cons]
      by_cases hb0 : b = 0
      · exact ⟨Or.inl (by simp [hb0]), Or.inr (by simp [hb0])⟩
      · exact ⟨Or.inr (by simp [hb0]), Or.inl (by simp [hb0])⟩

/-- Witness of C12: a present reference with size 0. -/
theorem six_operations_return_zero_or_one_witness :
    isInt 0 ∧ backed (some [7]) 0 ∧
      (istrue (some [7]) 0 = some 0 ∨ istrue (some [7]) 0 = some 1) ∧
      (isfalse (some [7]) 0 = some 0 ∨ isfalse (some [7]) 0 = some 1) :=
  have hb : backed (some [7]) 0 := by
    intro ptr h; cases h; decide
  have h := six_operations_return_zero_or_one (some [7]) 0 (by decide) hb
  ⟨by decide, hb, h.2.2.1, h.2.2.2.2⟩

/-- C13 (defect of the code). `istrue(&v, 1)` is documented to return 1 when
the scalar `v` is non-zero; for the `int` 256, stored as the bytes
`00 01 00 00`, only the first byte is read and 0 is returned. -/
theorem istrue_of_int_256_returns_zero :
    int_bytes 256 = [0, 1, 0, 0] ∧ istrue (some (int_bytes 256)) 1 = some 0 ∧
      (256 : Int) ≠ 0 :=
  ⟨by decide, by rw [istrue_int_bytes]; decide, by decide⟩

/-- C14, refuted as stated: on the two-byte array `[0,1]`, whose elements are
not all non-zero, `istrue_array` returns 1 and not 0. -/
theorem istrue_array_mixed_returns_one :
    istrue_array (some [0, 1]) 2 = some 1 ∧ ¬ ∀ b ∈ ([0, 1] : List Byte), b ≠ 0 := by
  constructor
  · rw [istrue_array_eq [0, 1] 2 (by decide) (by decide)]
    simp
  · simp

/-- C14, amended: for a present array of `n > 0` bytes, `istrue_array` returns
1 if at least one element is non-zero, in particular if all are, and 0
otherwise, that is when every element is zero. -/
theorem istrue_array_any_nonzero (ptr : List Byte) (n : Int) (hn : 0 < n)
    (hl : n ≤ ptr.length) :
    (istrue_array (some ptr) n = some 1 ↔
      ∃ i : Nat, (i : Int) < n ∧ ∃ b, ptr[i]? = some b ∧ b ≠ 0) ∧
    (istrue_array (some ptr) n = some 0 ↔ ∀ i : Nat, (i : Int) < n → ptr[i]? = some 0) ∧
    ((∀ i : Nat, (i : Int) < n → ∃ b, ptr[i]? = some b ∧ b ≠ 0) →
      istrue_array (some ptr) n = some 1) := by
  have hany := any_take_iff ptr n hl
  have hall := all_take_iff ptr n hl
  rw [istrue_array_eq ptr n (by omega) hl]
  by_cases h : ∀ b ∈ ptr.take n.toNat, b = 0
  · rw [if_pos h]
    refine ⟨⟨fun hc => absurd hc (by decide), fun hex => absurd h (hany.mpr hex)⟩,
      ⟨fun _ => hall.mp h, fun _ => rfl⟩, ?_⟩
    intro hnz
    obtain ⟨b, hb, hb0⟩ := hnz 0 (by omega)
    exact absurd h (hany.mpr ⟨0, by omega, b, hb, hb0⟩)
  · rw [if_neg h]
    exact ⟨⟨fun _ => hany.mp h, fun _ => rfl⟩,
      ⟨fun hc => absurd hc (by decide), fun hz => absurd (hall.mpr hz) h⟩, fun _ => rfl⟩

/-- Witness of C14 amended: the array `[0,1]` with `n = 2` has a non-zero
element and `istrue_array` returns 1. -/
theorem istrue_array_any_nonzero_witness :
    (0 : Int) < 2 ∧ (2 : Int) ≤ ([0, 1] : List Byte).length ∧
      istrue_array (some [0, 1]) 2 = some 1 :=
  ⟨by decide, by decide,
    (istrue_array_any_nonzero [0, 1] 2 (by decide) (by decide)).1.mpr
      ⟨1, by decide, 1, rfl, by decide⟩⟩

/-- C15. The dispatch on the width never changes the answer: for every
reference and every `int` size, `istrue` returns what `istrue_array` returns
and `isfalse` what `isfalse_array` returns, and on every reference the scalar
predicates agree with the array predicates at `n = 1`. -/
theorem dispatch_never_changes_answer (ref : Ref) (size : Int) (hs : isInt size) :
    istrue ref size = istrue_array ref size ∧
    isfalse ref size = isfalse_array ref size ∧
    istrue_scalar ref = istrue_array ref 1 ∧
    isfalse_scalar ref = isfalse_array ref 1 := by
  refine ⟨istrue_eq_istrue_array ref size hs, isfalse_eq_isfalse_array ref size hs, ?_, ?_⟩
  · cases ref with
    | none => rfl
    | some ptr => exact istrue_scalar_eq_array_one ptr
  · cases ref with
    | none => rfl
    | some ptr => exact isfalse_scalar_eq_array_one ptr

/-- Witness of C15: the one-byte region `[4]` with size 1. -/
theorem dispatch_never_changes_answer_witness :
    isInt 1 ∧ istrue (some [4]) 1 = istrue_array (some [4]) 1 ∧
      isfalse (some [4]) 1 = isfalse_array (some [4]) 1 :=
  have h := dispatch_never_changes_answer (some [4]) 1 (by decide)
  ⟨by decide, h.1, h.2.1⟩

/-- The dispatchers on a present reference and an `int` size other than 0 read
what the predicate they hand over to reads. -/
theorem istrue_reads_present (ptr : List Byte) (size : Int) (hs : isInt size) (h0 : size ≠ 0) :
    istrue_reads (some ptr) size
      = if size = 1 then [0] else istrue_array_loop_reads ptr size 0 := by
  simp only [istrue_reads, istrue_scalar_reads, istrue_array_reads, if_neg h0,
    toSizeT_eq_sizeof_char size hs]

theorem isfalse_reads_present (ptr : List Byte) (size : Int) (hs : isInt size) (h0 : size ≠ 0) :
    isfalse_reads (some ptr) size
      = if size = 1 then [0] else isfalse_array_loop_reads ptr size 0 := by
  simp only [isfalse_reads, isfalse_scalar_reads, isfalse_array_reads, if_neg h0,
    toSizeT_eq_sizeof_char size hs]

/-- C16. For a present reference and a negative `int` size the scan loops run
zero times and no byte is read, on any region; `istrue_array` and `istrue`
return 1, the zero count 0 differing from `size`, and `isfalse_array` and
`isfalse` return 1 as well. -/
theorem negative_size_both_answer_one (ptr : List Byte) (size : Int) (hs : isInt size)
    (hn : size < 0) :
    (istrue_array_reads (some ptr) size = [] ∧ istrue_reads (some ptr) size = [] ∧
      isfalse_array_reads (some ptr) size = [] ∧ isfalse_reads (some ptr) size = []) ∧
    (istrue_array_loop ptr size 0 0 = some 0 ∧ (0 : Int) ≠ size) ∧
    (istrue_array (some ptr) size = some 1 ∧ istrue (some ptr) size = some 1) ∧
    (isfalse_array (some ptr) size = some 1 ∧ isfalse (some ptr) size = some 1) := by
  have hz : size ≠ 0 := by omega
  have h1 : size ≠ 1 := by omega
  have hlt : ¬ (0 : Int) < size := by omega
  have hrt : istrue_array_loop_reads ptr size 0 = [] := by
    rw [istrue_array_loop_reads, if_neg hlt]
  have hrf : isfalse_array_loop_reads ptr size 0 = [] := by
    rw [isfalse_array_loop_reads, if_neg hlt]
  refine ⟨⟨?_, ?_, ?_, ?_⟩, ⟨?_, by omega⟩, ⟨?_, ?_⟩, ⟨?_, ?_⟩⟩
  · simp only [istrue_array_reads, if_neg hz, hrt]
  · rw [istrue_reads_present ptr size hs hz, if_neg h1, hrt]
  · simp only [isfalse_array_reads, if_neg hz, hrf]
  · rw [isfalse_reads_present ptr size hs hz, if_neg h1, hrf]
  · rw [istrue_array_loop, if_neg hlt]
  · exact istrue_array_of_neg ptr size hn
  · rw [istrue_eq_istrue_array _ size hs]
    exact istrue_array_of_neg ptr size hn
  · exact isfalse_array_of_neg ptr size hn
  · rw [isfalse_eq_isfalse_array _ size hs]
    exact isfalse_array_of_neg ptr size hn

/-- Witness of C16: size -3 on the region `[9]`. -/
theorem negative_size_both_answer_one_witness :
    isInt (-3) ∧ (-3 : Int) < 0 ∧
      istrue (some [9]) (-3) = some 1 ∧ isfalse (some [9]) (-3) = some 1 :=
  have h := negative_size_both_answer_one [9] (-3) (by decide) (by decide)
  ⟨by decide, by decide, h.2.2.1.2, h.2.2.2.2⟩

/-- C17. Reads stay inside the declared span: on a present region of length
`L` and an `int` size with `1 ≤ size ≤ L`, every position `istrue` and
`isfalse` read lies in `0 .. size-1` and inside the region, position 0 alone
is read when `size = 1`, and neither call takes the out-of-range branch: both
return 0 or 1. -/
theorem reads_stay_in_span (ptr : List Byte) (size : Int) (hs : isInt size)
    (h1 : 1 ≤ size) (hl : size ≤ ptr.length) :
    (∀ j ∈ istrue_reads (some ptr) size, 0 ≤ j ∧ j < size ∧ readByte ptr j ≠ none) ∧
    (∀ j ∈ isfalse_reads (some ptr) size, 0 ≤ j ∧ j < size ∧ readByte ptr j ≠ none) ∧
    (size = 1 → istrue_reads (some ptr) size = [0] ∧ isfalse_reads (some ptr) size = [0]) ∧
    (istrue (some ptr) size = some 0 ∨ istrue (some ptr) size = some 1) ∧
    (isfalse (some ptr) size = some 0 ∨ isfalse (some ptr) size = some 1) := by
  have hz : size ≠ 0 := by omega
  rw [istrue_reads_present ptr size hs hz, isfalse_reads_present ptr size hs hz,
    istrue_eq_istrue_array _ size hs, isfalse_eq_isfalse_array _ size hs]
  refine ⟨?_, ?_, fun h => by rw [if_pos h, if_pos h]; exact ⟨rfl, rfl⟩,
    istrue_array_zero_or_one ptr size hl, isfalse_array_zero_or_one ptr size hl⟩
  · intro j hj
    have hj2 : 0 ≤ j ∧ j < size := by
      by_cases hs1 : size = 1
      · rw [if_pos hs1] at hj
        simp only [List.mem_singleton] at hj
        omega
      · rw [if_neg hs1] at hj
        exact istrue_array_loop_reads_bounds ptr size _ 0 rfl j hj
    exact ⟨hj2.1, hj2.2, readByte_ne_none ptr j hj2.1 (by omega)⟩
  · intro j hj
    have hj2 : 0 ≤ j ∧ j < size := by
      by_cases hs1 : size = 1
      · rw [if_pos hs1] at hj
        simp only [List.mem_singleton] at hj
        omega
      · rw [if_neg hs1] at hj
        exact isfalse_array_loop_reads_bounds ptr size _ 0 rfl j hj
    exact ⟨hj2.1, hj2.2, readByte_ne_none ptr j hj2.1 (by omega)⟩

/-- Witness of C17: size 2 on the three-byte region `[0,5,8]`; `isfalse`
returns 0 without reading the third byte. -/
theorem reads_stay_in_span_witness :
    isInt 2 ∧ (1 : Int) ≤ 2 ∧ (2 : Int) ≤ ([0, 5, 8] : List Byte).length ∧
      (∀ j ∈ istrue_reads (some [0, 5, 8]) 2, 0 ≤ j ∧ j < 2 ∧ readByte [0, 5, 8] j ≠ none) ∧
      (∀ j ∈ isfalse_reads (some [0, 5, 8]) 2, 0 ≤ j ∧ j < 2 ∧ readByte [0, 5, 8] j ≠ none) :=
  have h := reads_stay_in_span [0, 5, 8] 2 (by decide) (by decide) (by decide)
  ⟨by decide, by decide, by decide, h.1, h.2.1⟩

end Huh
